import Mathlib

/-!
Shallow embedding of `src/markov.py` (class `MarkovChainGenerator`): order-N
Markov chain training over whitespace tokens and random-walk text generation,
with a `uniform` and a `probabilistic` weighting mode.

Python dicts preserve insertion order, so the transition table is embedded as
an association list `List (Context × List Token)`; `collections.defaultdict`
entry creation corresponds to appending a fresh key at the end of the list.
The global `random` source is embedded as explicit state (`RState`) threaded
through the calls, with `random.choice` modelled as a uniform index draw.
-/

namespace Markov

abbrev Token := String

/-- A Context is the tuple `tuple(words[i:i + chain_size])` used as a dict key
(src/markov.py lines 38, 46). -/
abbrev Context := List Token

/-- The transition table `self.chain`: a mapping from Context to the list of
recorded successor tokens, in dict insertion order. -/
abbrev Chain := List (Context × List Token)

/-- Helper for `tokenize`: accumulates the current (reversed) word while
scanning the character list, splitting on whitespace runs. -/
def splitWsAux : List Char → List Char → List (List Char)
  | [], cur => if cur = [] then [] else [cur.reverse]
  | c :: rest, cur =>
    if c.isWhitespace then
      if cur = [] then splitWsAux rest [] else cur.reverse :: splitWsAux rest []
    else splitWsAux rest (c :: cur)

/-- `text.split()` (src/markov.py line 31): split on whitespace runs, dropping
empty pieces. -/
def tokenize (text : String) : List Token :=
  (splitWsAux text.toList []).map fun cs => String.mk cs

/-- The window `words[i:i + chain_size]` (src/markov.py lines 38, 46). -/
def window (words : List Token) (i n : Nat) : Context :=
  (words.drop i).take n

/-- The successor `words[i + chain_size]` (src/markov.py lines 39, 47); the
default `""` is never reached for in-range `i`. -/
def nextWord (words : List Token) (i n : Nat) : Token :=
  words.getD (i + n) ""

/-- The iterations of the training loop `for i in range(len(words) - chain_size)`
as (key, successor) pairs, in loop order. -/
def pairs (words : List Token) (n : Nat) : List (Context × Token) :=
  (List.range (words.length - n)).map fun i => (window words i n, nextWord words i n)

/-- `self.chain[key].append(next_word)` on a `defaultdict(list)`
(src/markov.py line 40): append to the entry of `k`, creating the entry at the
end of the table if absent. -/
def assocUpdate : Chain → Context → Token → Chain
  | [], k, v => [(k, [v])]
  | (k', vs) :: rest, k, v =>
    if k' = k then (k', vs ++ [v]) :: rest else (k', vs) :: assocUpdate rest k v

/-- `self.chain.get(key)` (src/markov.py line 85): first entry whose key
matches, else `None`. -/
def chainGet : Chain → Context → Option (List Token)
  | [], _ => none
  | (k', vs) :: rest, k => if k' = k then some vs else chainGet rest k

/-- The `uniform` training branch (src/markov.py lines 34-40). -/
def trainUniform (words : List Token) (n : Nat) : Chain :=
  (List.range (words.length - n)).foldl
    (fun c i => assocUpdate c (window words i n) (nextWord words i n)) []

/-- One entry of `freq_chain`: successor token to its count, in insertion
order (src/markov.py line 44). -/
abbrev FreqInner := List (Token × Nat)

/-- `freq_chain`: Context to successor counts (src/markov.py line 44). -/
abbrev FreqChain := List (Context × FreqInner)

/-- `freq_chain[key][next_word] += 1`, inner dict part: increment the count of
`w`, creating the entry with count 1 if absent. -/
def innerIncr : FreqInner → Token → FreqInner
  | [], w => [(w, 1)]
  | (w', c) :: rest, w =>
    if w' = w then (w', c + 1) :: rest else (w', c) :: innerIncr rest w

/-- `freq_chain[key][next_word] += 1` (src/markov.py line 48): update the
inner counter of `k`, creating the entry at the end if absent. -/
def freqUpdate : FreqChain → Context → Token → FreqChain
  | [], k, w => [(k, [(w, 1)])]
  | (k', m) :: rest, k, w =>
    if k' = k then (k', innerIncr m w) :: rest else (k', m) :: freqUpdate rest k w

/-- Lookup in `freq_chain`. -/
def freqGet : FreqChain → Context → Option FreqInner
  | [], _ => none
  | (k', m) :: rest, k => if k' = k then some m else freqGet rest k

/-- The first loop of the `probabilistic` branch (src/markov.py lines 44-48). -/
def buildFreq (words : List Token) (n : Nat) : FreqChain :=
  (List.range (words.length - n)).foldl
    (fun f i => freqUpdate f (window words i n) (nextWord words i n)) []

/-- `weighted_list`: each word repeated `count` times, in inner-dict order
(src/markov.py lines 54-56). -/
def weighted (m : FreqInner) : List Token :=
  m.flatMap fun p => List.replicate p.2 p.1

/-- The `probabilistic` training branch (src/markov.py lines 42-57): build the
frequency table, then convert each counter to its weighted list. -/
def trainProb (words : List Token) (n : Nat) : Chain :=
  (buildFreq words n).map fun p => (p.1, weighted p.2)

/-- `MarkovChainGenerator.train` on an already tokenized word list
(src/markov.py lines 31-60): the `uniform` branch when `mode == 'uniform'`,
else the `probabilistic` branch. -/
def train (mode : String) (words : List Token) (n : Nat) : Chain :=
  if mode = "uniform" then trainUniform words n else trainProb words n

/-- `MarkovChainGenerator.train` on raw text (src/markov.py line 31:
`words = text.split()`). -/
def trainText (mode : String) (text : String) (n : Nat) : Chain :=
  train mode (tokenize text) n

/-- Deterministic successor function of the pseudo-random source (the concrete
constants are irrelevant to every claim; only determinism matters). -/
def lcg (s : Nat) : Nat :=
  (6364136223846793005 * s + 1442695040888963407) % 2 ^ 64

/-- State of the global `random` module, threaded explicitly. -/
structure RState where
  val : Nat
deriving DecidableEq

/-- `random.choice(l)`: draw a uniform index into `l` and advance the random
state. The default `d` is never reached on the non-empty lists the code uses. -/
def choice (s : RState) (l : List α) (d : α) : α × RState :=
  (l.getD (s.val % l.length) d, ⟨lcg s.val⟩)

/-- The sampling pool of one generation step (src/markov.py lines 90-96):
in `uniform` mode duplicates are removed (`list(set(possible_next_words))`,
whose element order is unspecified; modelled by `List.dedup`), otherwise the
weighted list is used as is.  The `isinstance(..., list)` guard is always
true: both training branches store lists. -/
def samplePool (mode : String) (possible : List Token) : List Token :=
  if mode = "uniform" then possible.dedup else possible

/-- The trained generator: `self.mode`, `self.chain`, `self.chain_size`. -/
structure Model where
  mode : String
  chain : Chain
  chain_size : Nat

/-- The generation loop `for _ in range(length - self.chain_size)`
(src/markov.py lines 84-99), with the iteration count as fuel: look up the
current key, break on a missing or empty entry, otherwise sample a successor,
append it to the result and shift the key window. -/
def genLoop (mode : String) (chain : Chain) :
    Nat → Context → List Token → RState → List Token × RState
  | 0, _, r, s => (r, s)
  | f + 1, key, r, s =>
    match chainGet chain key with
    | none => (r, s)
    | some possible =>
      if possible = [] then (r, s)
      else
        let ws := choice s (samplePool mode possible) ""
        genLoop mode chain f (key.drop 1 ++ [ws.1]) (r ++ [ws.1]) ws.2

/-- Token-level body of `generate` for a non-empty table (src/markov.py
lines 80-99): pick a start key uniformly from the keys in insertion order,
seed the result with its tokens, then run the loop. -/
def generateTokens (m : Model) (length : Nat) (s : RState) : List Token × RState :=
  let ks := choice s (m.chain.map Prod.fst) ([] : Context)
  genLoop m.mode m.chain (length - m.chain_size) ks.1 ks.1 ks.2

/-- The placeholder returned for an untrained model (src/markov.py line 77). -/
def untrainedMsg : String := "Обучите модель перед генерацией!"

/-- `MarkovChainGenerator.generate` (src/markov.py lines 62-101): reseed when
a seed is supplied, return the placeholder when the table is empty, otherwise
generate tokens and join them with single spaces. -/
def generate (m : Model) (length : Nat) (seed : Option Nat) (s0 : RState) :
    String × RState :=
  let s : RState := match seed with | some sd => ⟨sd⟩ | none => s0
  if m.chain = [] then (untrainedMsg, s)
  else
    let ts := generateTokens m length s
    (String.intercalate " " ts.1, ts.2)

/-- `total_transitions = sum(len(words) for words in self.chain.values())`
as reported by `get_stats` (src/markov.py line 109). -/
def total_transitions (c : Chain) : Nat :=
  (c.map fun p => p.2.length).sum

/-- Proof-layer view: the successors recorded for key `k` among the loop
iterations `ps`, in iteration order. -/
def succsOf (ps : List (Context × Token)) (k : Context) : List Token :=
  (ps.filter fun p => decide (p.1 = k)).map Prod.snd

theorem succsOf_nil (k : Context) : succsOf [] k = [] := rfl

theorem succsOf_cons (p : Context × Token) (ps : List (Context × Token)) (k : Context) :
    succsOf (p :: ps) k = if p.1 = k then p.2 :: succsOf ps k else succsOf ps k := by
  simp only [succsOf, List.filter_cons]
  split_ifs with h <;> simp_all

theorem chainGet_assocUpdate (c : Chain) (k₀ k : Context) (v₀ : Token) :
    chainGet (assocUpdate c k₀ v₀) k =
      if k = k₀ then some (((chainGet c k₀).getD []) ++ [v₀]) else chainGet c k := by
  induction c with
  | nil =>
    by_cases h : k = k₀
    · subst h; simp [assocUpdate, chainGet]
    · have h' : ¬k₀ = k := fun hh => h hh.symm
      simp [assocUpdate, chainGet, h, h']
  | cons hd tl ih =>
    obtain ⟨k', vs⟩ := hd
    by_cases h1 : k' = k₀
    · subst h1
      by_cases h2 : k = k'
      · subst h2; simp [assocUpdate, chainGet]
      · have h2' : ¬k' = k := fun hh => h2 hh.symm
        simp [assocUpdate, chainGet, h2, h2']
    · by_cases h2 : k' = k
      · subst h2
        simp [assocUpdate, chainGet, h1]
      · simp [assocUpdate, chainGet, h1, h2, ih]

theorem chainGet_foldl_assocUpdate (ps : List (Context × Token)) (c : Chain) (k : Context) :
    chainGet (ps.foldl (fun ch p => assocUpdate ch p.1 p.2) c) k =
      match chainGet c k with
      | some v => some (v ++ succsOf ps k)
      | none => if succsOf ps k = [] then none else some (succsOf ps k) := by
  induction ps generalizing c with
  | nil =>
    cases h : chainGet c k <;> simp [succsOf_nil, h]
  | cons p ps ih =>
    rw [List.foldl_cons, ih, chainGet_assocUpdate, succsOf_cons]
    by_cases hk : p.1 = k
    · subst hk
      simp only [if_pos rfl]
      cases h : chainGet c p.1 <;> simp [h]
    · rw [if_neg (fun hh : k = p.1 => hk hh.symm), if_neg hk]

theorem trainUniform_eq (words : List Token) (n : Nat) :
    trainUniform words n =
      (pairs words n).foldl (fun ch p => assocUpdate ch p.1 p.2) [] := by
  simp [trainUniform, pairs, List.foldl_map]

theorem chainGet_trainUniform (words : List Token) (n : Nat) (k : Context) :
    chainGet (trainUniform words n) k =
      if succsOf (pairs words n) k = [] then none
      else some (succsOf (pairs words n) k) := by
  rw [trainUniform_eq, chainGet_foldl_assocUpdate]
  simp [chainGet]

theorem getD_chainGet_trainUniform (words : List Token) (n : Nat) (k : Context) :
    (chainGet (trainUniform words n) k).getD [] = succsOf (pairs words n) k := by
  rw [chainGet_trainUniform]
  split_ifs with h <;> simp [h]

theorem freqGet_freqUpdate (f : FreqChain) (k₀ k : Context) (w : Token) :
    freqGet (freqUpdate f k₀ w) k =
      if k = k₀ then some (innerIncr ((freqGet f k₀).getD []) w) else freqGet f k := by
  induction f with
  | nil =>
    by_cases h : k = k₀
    · subst h; simp [freqUpdate, freqGet, innerIncr]
    · have h' : ¬k₀ = k := fun hh => h hh.symm
      simp [freqUpdate, freqGet, h, h']
  | cons hd tl ih =>
    obtain ⟨k', m⟩ := hd
    by_cases h1 : k' = k₀
    · subst h1
      by_cases h2 : k = k'
      · subst h2; simp [freqUpdate, freqGet]
      · have h2' : ¬k' = k := fun hh => h2 hh.symm
        simp [freqUpdate, freqGet, h2, h2']
    · by_cases h2 : k' = k
      · subst h2
        simp [freqUpdate, freqGet, h1]
      · simp [freqUpdate, freqGet, h1, h2, ih]

theorem count_weighted_innerIncr (m : FreqInner) (w t : Token) :
    (weighted (innerIncr m w)).count t =
      (weighted m).count t + if w = t then 1 else 0 := by
  induction m with
  | nil =>
    by_cases h : w = t
    · subst h; simp [innerIncr, weighted]
    · have h' : t ≠ w := fun hh => h hh.symm
      simp [innerIncr, weighted, h, List.count_cons_of_ne h']
  | cons hd tl ih =>
    obtain ⟨w', c⟩ := hd
    by_cases h : w' = w
    · subst h
      have hstep : innerIncr ((w', c) :: tl) w' = (w', c + 1) :: tl := by
        simp [innerIncr]
      rw [hstep]
      simp only [weighted, List.flatMap_cons, List.count_append]
      rw [List.count_replicate, List.count_replicate]
      by_cases h1 : w' = t
      · subst h1; simp; omega
      · have h1' : (w' == t) = false := by simp [h1]
        simp [h1', h1]
    · simp only [innerIncr, if_neg h, weighted, List.flatMap_cons, List.count_append]
      simp only [weighted] at ih
      rw [ih]
      omega

theorem count_weighted_freqGet_foldl (ps : List (Context × Token)) (f : FreqChain)
    (k : Context) (t : Token) :
    (weighted ((freqGet (ps.foldl (fun fc p => freqUpdate fc p.1 p.2) f) k).getD [])).count t =
      (weighted ((freqGet f k).getD [])).count t + (succsOf ps k).count t := by
  induction ps generalizing f with
  | nil => simp [succsOf_nil]
  | cons p ps ih =>
    rw [List.foldl_cons, ih, freqGet_freqUpdate, succsOf_cons]
    by_cases hk : p.1 = k
    · have hk' : k = p.1 := hk.symm
      rw [if_pos hk', if_pos hk, Option.getD_some, count_weighted_innerIncr, hk',
        List.count_cons]
      by_cases h1 : p.2 = t
      · subst h1; simp; omega
      · have h1' : (p.2 == t) = false := by simp [h1]
        simp [h1, h1']
    · have hk' : ¬k = p.1 := fun hh => hk hh.symm
      rw [if_neg hk', if_neg hk]

theorem freqGet_foldl_isSome (ps : List (Context × Token)) (f : FreqChain) (k : Context) :
    (freqGet (ps.foldl (fun fc p => freqUpdate fc p.1 p.2) f) k).isSome ↔
      (freqGet f k).isSome ∨ succsOf ps k ≠ [] := by
  induction ps generalizing f with
  | nil => simp [succsOf_nil]
  | cons p ps ih =>
    rw [List.foldl_cons, ih, freqGet_freqUpdate, succsOf_cons]
    by_cases hk : p.1 = k
    · have hk' : k = p.1 := hk.symm
      simp [if_pos hk', if_pos hk]
    · have hk' : ¬k = p.1 := fun hh => hk hh.symm
      rw [if_neg hk', if_neg hk]

theorem buildFreq_eq (words : List Token) (n : Nat) :
    buildFreq words n =
      (pairs words n).foldl (fun fc p => freqUpdate fc p.1 p.2) [] := by
  simp [buildFreq, pairs, List.foldl_map]

theorem chainGet_map_weighted (f : FreqChain) (k : Context) :
    chainGet (f.map fun p => (p.1, weighted p.2)) k = (freqGet f k).map weighted := by
  induction f with
  | nil => simp [chainGet, freqGet]
  | cons hd tl ih =>
    obtain ⟨k', m⟩ := hd
    by_cases h : k' = k <;> simp [chainGet, freqGet, h, ih]

theorem chainGet_trainProb (words : List Token) (n : Nat) (k : Context) :
    chainGet (trainProb words n) k = (freqGet (buildFreq words n) k).map weighted := by
  rw [trainProb, chainGet_map_weighted]

theorem getD_map_weighted (o : Option FreqInner) :
    (o.map weighted).getD [] = weighted (o.getD []) := by
  cases o <;> simp [weighted]

theorem count_getD_chainGet_trainProb (words : List Token) (n : Nat) (k : Context)
    (t : Token) :
    ((chainGet (trainProb words n) k).getD []).count t =
      (succsOf (pairs words n) k).count t := by
  rw [chainGet_trainProb, getD_map_weighted, buildFreq_eq, count_weighted_freqGet_foldl]
  simp [freqGet, weighted]

theorem isSome_chainGet_trainProb (words : List Token) (n : Nat) (k : Context) :
    (chainGet (trainProb words n) k).isSome ↔ succsOf (pairs words n) k ≠ [] := by
  rw [chainGet_trainProb, Option.isSome_map', buildFreq_eq, freqGet_foldl_isSome]
  simp [freqGet]

theorem isSome_chainGet_trainUniform (words : List Token) (n : Nat) (k : Context) :
    (chainGet (trainUniform words n) k).isSome ↔ succsOf (pairs words n) k ≠ [] := by
  rw [chainGet_trainUniform]
  split_ifs with h <;> simp [h]

theorem isSome_chainGet_train (mode : String) (words : List Token) (n : Nat) (k : Context) :
    (chainGet (train mode words n) k).isSome ↔ succsOf (pairs words n) k ≠ [] := by
  unfold train
  split_ifs with h
  · exact isSome_chainGet_trainUniform words n k
  · exact isSome_chainGet_trainProb words n k

theorem count_getD_chainGet_train (mode : String) (words : List Token) (n : Nat)
    (k : Context) (t : Token) :
    ((chainGet (train mode words n) k).getD []).count t =
      (succsOf (pairs words n) k).count t := by
  unfold train
  split_ifs with h
  · rw [getD_chainGet_trainUniform]
  · exact count_getD_chainGet_trainProb words n k t

theorem mem_pairs (words : List Token) (n : Nat) (p : Context × Token) :
    p ∈ pairs words n ↔
      ∃ i, i + n < words.length ∧ p = (window words i n, nextWord words i n) := by
  simp only [pairs, List.mem_map, List.mem_range]
  constructor
  · rintro ⟨i, hi, rfl⟩
    exact ⟨i, by omega, rfl⟩
  · rintro ⟨i, hi, rfl⟩
    exact ⟨i, by omega, rfl⟩

theorem succsOf_ne_nil_iff (ps : List (Context × Token)) (k : Context) :
    succsOf ps k ≠ [] ↔ ∃ p ∈ ps, p.1 = k := by
  simp [succsOf]

theorem mem_succsOf (ps : List (Context × Token)) (k : Context) (t : Token) :
    t ∈ succsOf ps k ↔ ∃ p ∈ ps, p.1 = k ∧ p.2 = t := by
  simp only [succsOf, List.mem_map, List.mem_filter, decide_eq_true_eq]
  constructor
  · rintro ⟨p, ⟨hp, hk⟩, rfl⟩
    exact ⟨p, hp, hk, rfl⟩
  · rintro ⟨p, hp, hk, rfl⟩
    exact ⟨p, ⟨hp, hk⟩, rfl⟩

theorem isSome_chainGet_train_iff (mode : String) (words : List Token) (n : Nat)
    (k : Context) :
    (chainGet (train mode words n) k).isSome ↔
      ∃ i, i + n < words.length ∧ k = window words i n := by
  rw [isSome_chainGet_train, succsOf_ne_nil_iff]
  constructor
  · rintro ⟨p, hp, hk⟩
    rw [mem_pairs] at hp
    obtain ⟨i, hi, rfl⟩ := hp
    exact ⟨i, hi, hk.symm⟩
  · rintro ⟨i, hi, rfl⟩
    exact ⟨(window words i n, nextWord words i n), (mem_pairs words n _).2 ⟨i, hi, rfl⟩, rfl⟩

theorem count_succsOf_pairs (words : List Token) (n : Nat) (k : Context) (t : Token) :
    (succsOf (pairs words n) k).count t =
      ((List.range (words.length - n)).filter fun i =>
        decide (window words i n = k ∧ nextWord words i n = t)).length := by
  unfold succsOf pairs
  rw [List.count_eq_countP, List.countP_map, List.countP_filter, List.countP_map,
    ← List.countP_eq_length_filter]
  apply List.countP_congr
  intro i _
  by_cases h1 : window words i n = k <;> by_cases h2 : nextWord words i n = t <;>
    simp [h1, h2, Function.comp]

theorem length_window (words : List Token) (i n : Nat) (h : i + n ≤ words.length) :
    (window words i n).length = n := by
  simp only [window, List.length_take, List.length_drop]
  omega

theorem train_values_ne_nil (mode : String) (words : List Token) (n : Nat) (k : Context)
    (v : List Token) (h : chainGet (train mode words n) k = some v) : v ≠ [] := by
  have hs : succsOf (pairs words n) k ≠ [] := by
    rw [← isSome_chainGet_train mode]
    simp [h]
  obtain ⟨t, ht⟩ := List.exists_mem_of_ne_nil _ hs
  have hc := count_getD_chainGet_train mode words n k t
  rw [h, Option.getD_some] at hc
  intro hv
  rw [hv] at hc
  have hpos := List.count_pos_iff.mpr ht
  simp at hc
  omega

theorem train_key_length (mode : String) (words : List Token) (n : Nat) (k : Context)
    (h : (chainGet (train mode words n) k).isSome) : k.length = n := by
  rw [isSome_chainGet_train_iff] at h
  obtain ⟨i, hi, rfl⟩ := h
  exact length_window words i n (le_of_lt hi)

theorem total_transitions_assocUpdate (c : Chain) (k : Context) (v : Token) :
    total_transitions (assocUpdate c k v) = total_transitions c + 1 := by
  induction c with
  | nil => simp [assocUpdate, total_transitions]
  | cons hd tl ih =>
    obtain ⟨k', vs⟩ := hd
    by_cases h : k' = k
    · simp [assocUpdate, h, total_transitions]
      omega
    · simp [assocUpdate, h, total_transitions] at *
      omega

theorem total_transitions_foldl (ps : List (Context × Token)) (c : Chain) :
    total_transitions (ps.foldl (fun ch p => assocUpdate ch p.1 p.2) c) =
      total_transitions c + ps.length := by
  induction ps generalizing c with
  | nil => simp
  | cons p ps ih =>
    rw [List.foldl_cons, ih, total_transitions_assocUpdate]
    simp
    omega

theorem total_transitions_trainUniform (words : List Token) (n : Nat) :
    total_transitions (trainUniform words n) = words.length - n := by
  rw [trainUniform_eq, total_transitions_foldl]
  simp [total_transitions, pairs]

theorem length_weighted_innerIncr (m : FreqInner) (w : Token) :
    (weighted (innerIncr m w)).length = (weighted m).length + 1 := by
  induction m with
  | nil => simp [innerIncr, weighted]
  | cons hd tl ih =>
    obtain ⟨w', c⟩ := hd
    by_cases h : w' = w
    · subst h
      have hstep : innerIncr ((w', c) :: tl) w' = (w', c + 1) :: tl := by
        simp [innerIncr]
      rw [hstep]
      simp [weighted]
      omega
    · simp [innerIncr, h, weighted] at *
      omega

theorem wtotal_freqUpdate (f : FreqChain) (k : Context) (w : Token) :
    ((freqUpdate f k w).map fun p => (weighted p.2).length).sum =
      ((f.map fun p => (weighted p.2).length).sum) + 1 := by
  induction f with
  | nil => simp [freqUpdate, innerIncr, weighted]
  | cons hd tl ih =>
    obtain ⟨k', m⟩ := hd
    by_cases h : k' = k
    · simp [freqUpdate, h, length_weighted_innerIncr]
      omega
    · simp [freqUpdate, h] at *
      omega

theorem wtotal_foldl (ps : List (Context × Token)) (f : FreqChain) :
    ((ps.foldl (fun fc p => freqUpdate fc p.1 p.2) f).map fun p => (weighted p.2).length).sum =
      ((f.map fun p => (weighted p.2).length).sum) + ps.length := by
  induction ps generalizing f with
  | nil => simp
  | cons p ps ih =>
    rw [List.foldl_cons, ih, wtotal_freqUpdate]
    simp only [List.length_cons]
    omega

theorem total_transitions_trainProb (words : List Token) (n : Nat) :
    total_transitions (trainProb words n) = words.length - n := by
  have hmap : total_transitions (trainProb words n) =
      ((buildFreq words n).map fun p => (weighted p.2).length).sum := by
    simp only [trainProb, total_transitions, List.map_map]
    rfl
  rw [hmap, buildFreq_eq, wtotal_foldl]
  simp [pairs]

theorem total_transitions_train (mode : String) (words : List Token) (n : Nat) :
    total_transitions (train mode words n) = words.length - n := by
  unfold train
  split_ifs with h
  · exact total_transitions_trainUniform words n
  · exact total_transitions_trainProb words n

theorem choice_mem {α : Type _} (s : RState) (l : List α) (d : α) (h : l ≠ []) :
    (choice s l d).1 ∈ l := by
  unfold choice
  have hlen : 0 < l.length := List.length_pos.mpr h
  have hidx : s.val % l.length < l.length := Nat.mod_lt _ hlen
  simp only
  rw [List.getD_eq_getElem l d hidx]
  exact List.getElem_mem hidx

theorem isSome_chainGet_iff_mem_keys (c : Chain) (k : Context) :
    (chainGet c k).isSome ↔ k ∈ c.map Prod.fst := by
  induction c with
  | nil => simp [chainGet]
  | cons hd tl ih =>
    obtain ⟨k', vs⟩ := hd
    by_cases h : k' = k
    · subst h; simp [chainGet]
    · simp only [chainGet, if_neg h, List.map_cons, List.mem_cons]
      rw [ih]
      constructor
      · intro hm; exact Or.inr hm
      · rintro (hh | hm)
        · exact absurd hh.symm h
        · exact hm

theorem drop_shift (r : List Token) (w : Token) (n : Nat) (hn : 1 ≤ n)
    (hr : n ≤ r.length) :
    (r.drop (r.length - n)).drop 1 ++ [w] = (r ++ [w]).drop ((r ++ [w]).length - n) := by
  rw [List.length_append, List.drop_drop]
  have hle : r.length + 1 - n ≤ r.length := by omega
  rw [show r.length + [w].length - n = r.length + 1 - n by simp,
    List.drop_append_of_le_length hle]
  congr 2
  omega

theorem genLoop_spec (mode : String) (chain : Chain) (n : Nat) (hn : 1 ≤ n)
    (hv : ∀ k v, chainGet chain k = some v → v ≠ []) :
    ∀ (f : Nat) (key r : List Token) (s : RState),
      key = r.drop (r.length - n) → n ≤ r.length →
      (∃ ext, (genLoop mode chain f key r s).1 = r ++ ext) ∧
      ((genLoop mode chain f key r s).1.length = r.length + f ∨
        ((genLoop mode chain f key r s).1.length < r.length + f ∧
          chainGet chain
            ((genLoop mode chain f key r s).1.drop
              ((genLoop mode chain f key r s).1.length - n)) = none)) := by
  intro f
  induction f with
  | zero =>
    intro key r s hk hr
    exact ⟨⟨[], by simp [genLoop]⟩, Or.inl (by simp [genLoop])⟩
  | succ f ih =>
    intro key r s hk hr
    cases hc : chainGet chain key with
    | none =>
      have hg : genLoop mode chain (f + 1) key r s = (r, s) := by
        simp [genLoop, hc]
      rw [hg]
      refine ⟨⟨[], by simp⟩, Or.inr ⟨?_, by rw [← hk]; exact hc⟩⟩
      simp
    | some possible =>
      have hpos : possible ≠ [] := hv key possible hc
      have hg : genLoop mode chain (f + 1) key r s =
          genLoop mode chain f
            (key.drop 1 ++ [(choice s (samplePool mode possible) "").1])
            (r ++ [(choice s (samplePool mode possible) "").1])
            (choice s (samplePool mode possible) "").2 := by
        simp [genLoop, hc, hpos]
      rw [hg]
      have hk' : key.drop 1 ++ [(choice s (samplePool mode possible) "").1] =
          (r ++ [(choice s (samplePool mode possible) "").1]).drop
            ((r ++ [(choice s (samplePool mode possible) "").1]).length - n) := by
        rw [hk]
        exact drop_shift r _ n hn hr
      have hr' : n ≤ (r ++ [(choice s (samplePool mode possible) "").1]).length := by
        simp
        omega
      obtain ⟨⟨ext, hext⟩, hlen⟩ := ih _ _ _ hk' hr'
      constructor
      · exact ⟨(choice s (samplePool mode possible) "").1 :: ext, by
          rw [hext, List.append_assoc]
          rfl⟩
      · rcases hlen with h1 | ⟨h2, h3⟩
        · left
          rw [h1, List.length_append]
          simp only [List.length_cons, List.length_nil]
          omega
        · right
          refine ⟨?_, h3⟩
          rw [List.length_append] at h2
          simp only [List.length_cons, List.length_nil] at h2
          omega

theorem genLoop_mode_eq (mode : String) (h : mode ≠ "uniform") (chain : Chain) :
    ∀ (f : Nat) (key r : List Token) (s : RState),
      genLoop mode chain f key r s = genLoop "probabilistic" chain f key r s := by
  intro f
  induction f with
  | zero => intro key r s; rfl
  | succ f ih =>
    intro key r s
    simp only [genLoop]
    cases hc : chainGet chain key with
    | none => rfl
    | some possible =>
      by_cases hp : possible = []
      · simp [hp]
      · simp only [hp, if_neg hp]
        rw [show samplePool mode possible = possible from if_neg h,
          show samplePool "probabilistic" possible = possible from
            if_neg (by decide : ¬("probabilistic" = "uniform"))]
        exact ih _ _ _

theorem train_mode_eq (mode : String) (h : mode ≠ "uniform") (words : List Token)
    (n : Nat) : train mode words n = train "probabilistic" words n := by
  unfold train
  rw [if_neg h, if_neg (by decide : ¬("probabilistic" = "uniform"))]

theorem generate_mode_eq (mode : String) (h : mode ≠ "uniform") (c : Chain)
    (cs length : Nat) (seed : Option Nat) (s0 : RState) :
    generate ⟨mode, c, cs⟩ length seed s0 =
      generate ⟨"probabilistic", c, cs⟩ length seed s0 := by
  unfold generate generateTokens
  simp only
  rw [genLoop_mode_eq mode h]

theorem train_short_eq_nil (mode : String) (words : List Token) (n : Nat)
    (h : words.length < n + 1) : train mode words n = [] := by
  have hz : words.length - n = 0 := by omega
  unfold train trainUniform trainProb buildFreq
  rw [hz]
  simp

theorem generate_nil_chain (m : Model) (hc : m.chain = []) (length : Nat)
    (seed : Option Nat) (s0 : RState) :
    (generate m length seed s0).1 = untrainedMsg := by
  cases seed <;> simp [generate, hc]

theorem generateTokens_spec (m : Model) (words : List Token) (length : Nat) (s : RState)
    (htr : m.chain = train m.mode words m.chain_size)
    (hne : m.chain ≠ []) (hn : 1 ≤ m.chain_size) (hlen : m.chain_size ≤ length) :
    (generateTokens m length s).1.take m.chain_size =
        (choice s (m.chain.map Prod.fst) ([] : Context)).1 ∧
      (choice s (m.chain.map Prod.fst) ([] : Context)).1.length = m.chain_size ∧
      ((generateTokens m length s).1.length = length ∨
        ((generateTokens m length s).1.length < length ∧
          chainGet m.chain
            ((generateTokens m length s).1.drop
              ((generateTokens m length s).1.length - m.chain_size)) = none)) := by
  have hkeys : m.chain.map Prod.fst ≠ [] := by
    intro hh
    exact hne (List.map_eq_nil_iff.mp hh)
  have hmem := choice_mem s (m.chain.map Prod.fst) ([] : Context) hkeys
  have hsome :
      (chainGet m.chain (choice s (m.chain.map Prod.fst) ([] : Context)).1).isSome := by
    rw [isSome_chainGet_iff_mem_keys]
    exact hmem
  have hklen : (choice s (m.chain.map Prod.fst) ([] : Context)).1.length = m.chain_size := by
    apply train_key_length m.mode words m.chain_size
    rw [← htr]
    exact hsome
  have hv : ∀ k v, chainGet m.chain k = some v → v ≠ [] := by
    intro k v hkv
    rw [htr] at hkv
    exact train_values_ne_nil m.mode words m.chain_size k v hkv
  have hspec := genLoop_spec m.mode m.chain m.chain_size hn hv
    (length - m.chain_size)
    (choice s (m.chain.map Prod.fst) ([] : Context)).1
    (choice s (m.chain.map Prod.fst) ([] : Context)).1
    (choice s (m.chain.map Prod.fst) ([] : Context)).2
    (by rw [hklen, Nat.sub_self, List.drop_zero])
    hklen.ge
  have hgt : generateTokens m length s =
      genLoop m.mode m.chain (length - m.chain_size)
        (choice s (m.chain.map Prod.fst) ([] : Context)).1
        (choice s (m.chain.map Prod.fst) ([] : Context)).1
        (choice s (m.chain.map Prod.fst) ([] : Context)).2 := rfl
  rw [hgt]
  obtain ⟨⟨ext, hext⟩, hlens⟩ := hspec
  refine ⟨?_, hklen, ?_⟩
  · rw [hext]
    exact List.take_left' hklen
  · rcases hlens with h1 | ⟨h2, h3⟩
    · left
      rw [h1, hklen]
      omega
    · right
      refine ⟨?_, h3⟩
      rw [hklen] at h2
      omega

/-- Claim C1: for every token list and context length `n ≥ 1`, in either mode
the trained table has as keys exactly the windows of `n` consecutive tokens at
positions `i` with `i + n < len(words)` (so the final `n` tokens never form
a key), every key has length `n`, the successor recorded for the window at
position `i` is the token at position `i + n`, and every recorded successor
arises that way (no spurious successors). -/
theorem C1_train_table (mode : String) (words : List Token) (n : Nat) (hn : 1 ≤ n) :
    (∀ k : Context, (chainGet (train mode words n) k).isSome ↔
        ∃ i, i + n < words.length ∧ k = window words i n) ∧
      (∀ k : Context, (chainGet (train mode words n) k).isSome → k.length = n) ∧
      (∀ i, i + n < words.length →
        nextWord words i n ∈ (chainGet (train mode words n) (window words i n)).getD []) ∧
      (∀ k t, t ∈ (chainGet (train mode words n) k).getD [] →
        ∃ i, i + n < words.length ∧ window words i n = k ∧ nextWord words i n = t) := by
  refine ⟨fun k => isSome_chainGet_train_iff mode words n k,
    fun k h => train_key_length mode words n k h, ?_, ?_⟩
  · intro i hi
    rw [← List.count_pos_iff, count_getD_chainGet_train, List.count_pos_iff, mem_succsOf]
    exact ⟨(window words i n, nextWord words i n),
      (mem_pairs words n _).2 ⟨i, hi, rfl⟩, rfl, rfl⟩
  · intro k t ht
    rw [← List.count_pos_iff, count_getD_chainGet_train, List.count_pos_iff,
      mem_succsOf] at ht
    obtain ⟨p, hp, hk, hsucc⟩ := ht
    rw [mem_pairs] at hp
    obtain ⟨i, hi, rfl⟩ := hp
    exact ⟨i, hi, hk, hsucc⟩

/-- Witness for C1 at mode `"uniform"`, `words = ["a","b","c"]`, `n = 1`. -/
theorem C1_train_table_witness :
    1 ≤ 1 ∧
      ((∀ k : Context, (chainGet (train "uniform" ["a", "b", "c"] 1) k).isSome ↔
          ∃ i, i + 1 < (["a", "b", "c"] : List Token).length ∧
            k = window ["a", "b", "c"] i 1) ∧
        (∀ k : Context,
          (chainGet (train "uniform" ["a", "b", "c"] 1) k).isSome → k.length = 1) ∧
        (∀ i, i + 1 < (["a", "b", "c"] : List Token).length →
          nextWord ["a", "b", "c"] i 1 ∈
            (chainGet (train "uniform" ["a", "b", "c"] 1)
              (window ["a", "b", "c"] i 1)).getD []) ∧
        (∀ k t, t ∈ (chainGet (train "uniform" ["a", "b", "c"] 1) k).getD [] →
          ∃ i, i + 1 < (["a", "b", "c"] : List Token).length ∧
            window ["a", "b", "c"] i 1 = k ∧ nextWord ["a", "b", "c"] i 1 = t)) :=
  ⟨le_rfl, C1_train_table "uniform" ["a", "b", "c"] 1 le_rfl⟩

/-- Claim C2: in probabilistic mode each successor is stored with multiplicity
equal to the number of times it was observed immediately after the context,
and on the corpus "the cat sat on the mat the cat ran" with context length 2
the context ("the","cat") maps to a two-element collection holding "sat" once
and "ran" once. -/
theorem C2_probabilistic_multiset :
    (∀ (words : List Token) (n : Nat) (k : Context) (t : Token),
      ((chainGet (train "probabilistic" words n) k).getD []).count t =
        ((List.range (words.length - n)).filter fun i =>
          decide (window words i n = k ∧ nextWord words i n = t)).length) ∧
      ((chainGet (train "probabilistic" (tokenize "the cat sat on the mat the cat ran") 2)
          ["the", "cat"]).getD []).count "sat" = 1 ∧
      ((chainGet (train "probabilistic" (tokenize "the cat sat on the mat the cat ran") 2)
          ["the", "cat"]).getD []).count "ran" = 1 ∧
      ((chainGet (train "probabilistic" (tokenize "the cat sat on the mat the cat ran") 2)
          ["the", "cat"]).getD []).length = 2 := by
  refine ⟨?_, by decide, by decide, by decide⟩
  intro words n k t
  rw [count_getD_chainGet_train, count_succsOf_pairs]

/-- Claim C3: generating from a trained model with a non-empty table and
requested `length ≥ chain_size` yields a token sequence that starts with the
`chain_size` tokens of the randomly chosen start context and has exactly
`length` tokens, unless a dead end (trailing window absent from the table)
terminates it early with the shorter sequence produced so far; the returned
string is those tokens joined by spaces. -/
theorem C3_generate_length (m : Model) (words : List Token) (length : Nat) (s : RState)
    (htr : m.chain = train m.mode words m.chain_size) (hne : m.chain ≠ [])
    (hn : 1 ≤ m.chain_size) (hlen : m.chain_size ≤ length) :
    (generateTokens m length s).1.take m.chain_size =
        (choice s (m.chain.map Prod.fst) ([] : Context)).1 ∧
      (choice s (m.chain.map Prod.fst) ([] : Context)).1.length = m.chain_size ∧
      ((generateTokens m length s).1.length = length ∨
        ((generateTokens m length s).1.length < length ∧
          chainGet m.chain
            ((generateTokens m length s).1.drop
              ((generateTokens m length s).1.length - m.chain_size)) = none)) ∧
      (generate m length none s).1 = String.intercalate " " (generateTokens m length s).1 := by
  obtain ⟨h1, h2, h3⟩ := generateTokens_spec m words length s htr hne hn hlen
  refine ⟨h1, h2, h3, ?_⟩
  simp [generate, hne]

/-- Witness for C3: uniform model trained on "a b a c" with context length 1,
requested length 4, start state 0. -/
theorem C3_generate_length_witness :
    (train "uniform" ["a", "b", "a", "c"] 1 ≠ [] ∧ 1 ≤ 1 ∧ 1 ≤ 4) ∧
      ((generateTokens ⟨"uniform", train "uniform" ["a", "b", "a", "c"] 1, 1⟩ 4 ⟨0⟩).1.take 1 =
          (choice ⟨0⟩ ((train "uniform" ["a", "b", "a", "c"] 1).map Prod.fst)
            ([] : Context)).1 ∧
        (choice ⟨0⟩ ((train "uniform" ["a", "b", "a", "c"] 1).map Prod.fst)
            ([] : Context)).1.length = 1 ∧
        ((generateTokens ⟨"uniform", train "uniform" ["a", "b", "a", "c"] 1, 1⟩ 4 ⟨0⟩).1.length = 4 ∨
          ((generateTokens ⟨"uniform", train "uniform" ["a", "b", "a", "c"] 1, 1⟩ 4 ⟨0⟩).1.length < 4 ∧
            chainGet (train "uniform" ["a", "b", "a", "c"] 1)
              ((generateTokens ⟨"uniform", train "uniform" ["a", "b", "a", "c"] 1, 1⟩ 4 ⟨0⟩).1.drop
                ((generateTokens ⟨"uniform", train "uniform" ["a", "b", "a", "c"] 1, 1⟩ 4 ⟨0⟩).1.length -
                  1)) = none)) ∧
        (generate ⟨"uniform", train "uniform" ["a", "b", "a", "c"] 1, 1⟩ 4 none ⟨0⟩).1 =
          String.intercalate " "
            (generateTokens ⟨"uniform", train "uniform" ["a", "b", "a", "c"] 1, 1⟩ 4 ⟨0⟩).1) :=
  ⟨⟨by decide, le_rfl, by omega⟩,
    C3_generate_length ⟨"uniform", train "uniform" ["a", "b", "a", "c"] 1, 1⟩
      ["a", "b", "a", "c"] 4 ⟨0⟩ rfl (by decide) le_rfl (by decide)⟩

/-- Counterexample to C4 as stated: training uniform mode on "a b a b a" with
context length 1 stores the duplicate-bearing successor list ["b", "b"] for
key ["a"] — the stored collection is not duplicate-free. -/
theorem C4_uniform_counterexample :
    ¬ ((chainGet (train "uniform" ["a", "b", "a", "b", "a"] 1) ["a"]).getD []).Nodup := by
  decide

/-- Claim C4 (amended): in uniform mode the stored successor collection keeps
one entry per observation (a successor observed k times is stored k times, so
duplicates survive in storage); the set semantics is applied at generation
time, where the sampling pool is duplicate-free and carries exactly the
distinct stored successors. -/
theorem C4_uniform_storage (words : List Token) (n : Nat) (k : Context) (t : Token)
    (possible : List Token) :
    ((chainGet (train "uniform" words n) k).getD []).count t =
        ((List.range (words.length - n)).filter fun i =>
          decide (window words i n = k ∧ nextWord words i n = t)).length ∧
      (samplePool "uniform" possible).Nodup ∧
      (t ∈ samplePool "uniform" possible ↔ t ∈ possible) := by
  refine ⟨?_, ?_, ?_⟩
  · rw [count_getD_chainGet_train, count_succsOf_pairs]
  · simp [samplePool, List.nodup_dedup]
  · simp [samplePool, List.mem_dedup]

/-- Claim C5: in uniform mode, a generation step draws from the deduplicated
pool: the sampled token is one of the stored successors, the pool has no
duplicates, its members are exactly the distinct stored successors, and each
distinct successor occupies exactly one slot of the uniform draw (duplicate
observations carry no extra weight). -/
theorem C5_uniform_sampling (possible : List Token) (s : RState) (h : possible ≠ []) :
    (choice s (samplePool "uniform" possible) "").1 ∈ possible ∧
      (samplePool "uniform" possible).Nodup ∧
      (∀ t, t ∈ samplePool "uniform" possible ↔ t ∈ possible) ∧
      (∀ t, t ∈ samplePool "uniform" possible →
        (samplePool "uniform" possible).count t = 1) := by
  have hpool : samplePool "uniform" possible = possible.dedup := if_pos rfl
  have hnd : (samplePool "uniform" possible).Nodup := by
    rw [hpool]
    exact List.nodup_dedup possible
  have hne : samplePool "uniform" possible ≠ [] := by
    rw [hpool]
    intro hh
    exact h ((List.dedup_eq_nil possible).mp hh)
  have hsub : ∀ x, x ∈ samplePool "uniform" possible → x ∈ possible := by
    intro x hx
    rw [hpool, List.mem_dedup] at hx
    exact hx
  refine ⟨hsub _ (choice_mem s (samplePool "uniform" possible) "" hne), hnd, ?_, ?_⟩
  · intro t
    rw [hpool, List.mem_dedup]
  · intro t ht
    exact List.count_eq_one_of_mem hnd ht

/-- Witness for C5 on the successor list ["a","a","b"] with state 0. -/
theorem C5_uniform_sampling_witness :
    (["a", "a", "b"] : List Token) ≠ [] ∧
      ((choice ⟨0⟩ (samplePool "uniform" ["a", "a", "b"]) "").1 ∈
          (["a", "a", "b"] : List Token) ∧
        (samplePool "uniform" ["a", "a", "b"]).Nodup ∧
        (∀ t, t ∈ samplePool "uniform" ["a", "a", "b"] ↔
          t ∈ (["a", "a", "b"] : List Token)) ∧
        (∀ t, t ∈ samplePool "uniform" ["a", "a", "b"] →
          (samplePool "uniform" ["a", "a", "b"]).count t = 1)) :=
  ⟨by decide, C5_uniform_sampling ["a", "a", "b"] ⟨0⟩ (by decide)⟩

/-- Claim C6: supplying an integer seed deterministically reseeds the random
source before generation, so two generate calls with the same model, length
and seed return identical output strings regardless of the prior state of the
random source. -/
theorem C6_seed_determinism (m : Model) (length : Nat) (sd : Nat) (s1 s2 : RState) :
    (generate m length (some sd) s1).1 = (generate m length (some sd) s2).1 := rfl

/-- Claim C7: a training text whose whitespace tokenization has fewer than
`contextLength + 1` tokens (including the empty text) trains without error to
an empty table, and generating from that model returns the fixed untrained
placeholder message. -/
theorem C7_degenerate_training (mode : String) (text : String) (n : Nat)
    (h : (tokenize text).length < n + 1) :
    trainText mode text n = [] ∧
      ∀ (length : Nat) (seed : Option Nat) (s0 : RState),
        (generate ⟨mode, trainText mode text n, n⟩ length seed s0).1 = untrainedMsg := by
  have hnil : trainText mode text n = [] := train_short_eq_nil mode (tokenize text) n h
  exact ⟨hnil, fun length seed s0 => generate_nil_chain _ hnil length seed s0⟩

/-- Witness for C7 on the two-token text "a b" with context length 2. -/
theorem C7_degenerate_training_witness :
    (tokenize "a b").length < 2 + 1 ∧
      (trainText "probabilistic" "a b" 2 = [] ∧
        ∀ (length : Nat) (seed : Option Nat) (s0 : RState),
          (generate ⟨"probabilistic", trainText "probabilistic" "a b" 2, 2⟩
            length seed s0).1 = untrainedMsg) :=
  ⟨by decide, C7_degenerate_training "probabilistic" "a b" 2 (by decide)⟩

/-- Claim C8: every mode string other than "uniform" — including the
misspelled "probalistic" of the driving script — silently behaves exactly as
probabilistic mode in training and in generation, with no error raised. -/
theorem C8_mode_fallback (mode : String) (h : mode ≠ "uniform") :
    (∀ (words : List Token) (n : Nat),
        train mode words n = train "probabilistic" words n) ∧
      (∀ possible : List Token, samplePool mode possible = possible) ∧
      (∀ (c : Chain) (cs length : Nat) (seed : Option Nat) (s0 : RState),
        generate ⟨mode, c, cs⟩ length seed s0 =
          generate ⟨"probabilistic", c, cs⟩ length seed s0) :=
  ⟨fun words n => train_mode_eq mode h words n,
    fun possible => if_neg h,
    fun c cs length seed s0 => generate_mode_eq mode h c cs length seed s0⟩

/-- Witness for C8 at the driving script's misspelled mode "probalistic". -/
theorem C8_mode_fallback_witness :
    ("probalistic" : String) ≠ "uniform" ∧
      ((∀ (words : List Token) (n : Nat),
          train "probalistic" words n = train "probabilistic" words n) ∧
        (∀ possible : List Token, samplePool "probalistic" possible = possible) ∧
        (∀ (c : Chain) (cs length : Nat) (seed : Option Nat) (s0 : RState),
          generate ⟨"probalistic", c, cs⟩ length seed s0 =
            generate ⟨"probabilistic", c, cs⟩ length seed s0)) :=
  ⟨by decide, C8_mode_fallback "probalistic" (by decide)⟩

/-- Claim C9: in every mode, every context key present in the trained table
maps to a non-empty successor collection. -/
theorem C9_values_nonempty (mode : String) (words : List Token) (n : Nat)
    (k : Context) (v : List Token)
    (h : chainGet (train mode words n) k = some v) : v ≠ [] :=
  train_values_ne_nil mode words n k v h

/-- Witness for C9: training "a b" uniformly with context length 1 stores
["b"] for key ["a"]. -/
theorem C9_values_nonempty_witness :
    chainGet (train "uniform" ["a", "b"] 1) ["a"] = some ["b"] ∧
      (["b"] : List Token) ≠ [] :=
  ⟨by decide, C9_values_nonempty "uniform" ["a", "b"] 1 ["a"] ["b"] (by decide)⟩

/-- Claim C10: in both modes, the total number of recorded transitions — the
sum of stored successor-collection lengths, as reported by get_stats — equals
`len(words) - contextLength` truncated at zero, i.e. one transition per
sliding window (in uniform mode duplicates are counted, not distinct
successors). -/
theorem C10_total_transitions (mode : String) (words : List Token) (n : Nat) :
    total_transitions (train mode words n) = words.length - n :=
  total_transitions_train mode words n

end Markov
